/-
Verification of the Compass-Master graph pipeline against its
natural-language specification.

The definitions below are shallow embeddings of the Python sources:
  * `src/Neo4J/services/graphsubtree_service.py` (subtree reconstruction),
  * `src/Neo4J/routes/intent_routes.py` (intent NLU route helpers),
  * `src/apps/server/src/utils/llmthinking.py` (query planning helpers).
Store-internal node/relationship identities are `Nat`; Python dicts that
are only ever read by key-lookup and iterated in insertion order are
embedded as insertion-ordered association lists.
-/
import Mathlib

namespace Compass

/-! ## Data model (graphsubtree_service.py)

A graph node as it appears in a flat traversal result row: the Python code
reads `node.id`, `node.get("uid")`, `node.labels`, `dict(node)`. -/

structure NodeRec where
  id : Nat
  uid : Option Int
  labels : List String
  props : List (String × String)
deriving DecidableEq, Repr

/-- A relationship descriptor as stored in `relationships_map`:
`{id, type, start_node_id, end_node_id, properties}`. -/
structure RelRec where
  id : Nat
  type : String
  startId : Nat
  endId : Nat
  props : List (String × String)
deriving DecidableEq, Repr

/-- One row of the flat traversal result: `RETURN DISTINCT nd, rel, length(p)`.
The relationship may be `None` (`if rel is not None` in the source). -/
structure Record where
  node : NodeRec
  rel : Option RelRec
  depth : Nat
deriving DecidableEq, Repr

/-- Normalized traversal direction (`direction_map` values). -/
inductive Direction where
  | outgoing
  | incoming
  | both
deriving DecidableEq, Repr

/-- `direction_map.get(direction.lower())`: unknown strings map to `none`
(the source raises `ValueError` there). -/
def normalizeDirection (s : String) : Option Direction :=
  if s = "out" then some .outgoing
  else if s = "in" then some .incoming
  else if s = "both" then some .both
  else if s = "outgoing" then some .outgoing
  else if s = "incoming" then some .incoming
  else none

/-! ## Insertion-ordered dictionaries

Python `dict`s keyed by ids/strings: lookup by key; writing an existing key
keeps its position, writing a new key appends it. -/

/-- Dictionary lookup. -/
def alookup {α β : Type} [DecidableEq α] (k : α) : List (α × β) → Option β
  | [] => none
  | (k', v) :: rest => if k' = k then some v else alookup k rest

/-- Dictionary write: update in place if the key exists, append otherwise. -/
def aupdate {α β : Type} [DecidableEq α] (k : α) (f : Option β → β) :
    List (α × β) → List (α × β)
  | [] => [(k, f none)]
  | (k', v) :: rest =>
    if k' = k then (k', f (some v)) :: rest else (k', v) :: aupdate k f rest

/-! ## Flat-result processing (`for record in results` loop, lines 80–111)

`nodes_map` and `node_depths` are two dicts updated in lockstep in the
source (seeded together with the root, and a key is added to both exactly
when `node_id not in nodes_map`); they are embedded as one association
list from node id to (entry, depth). -/

structure RecState where
  nodes : List (Nat × (NodeRec × Nat))
  maxDepth : Nat
  rels : List RelRec
deriving DecidableEq, Repr

/-- Processing one `(nd, rel, depth)` record:
depth tracking keeps the minimum (`if depth_val < node_depths[node_id]`),
the `nodes_map` entry itself is never overwritten, `max_depth` is raised,
and relationships are deduplicated by id, first occurrence kept. -/
def stepRecord (s : RecState) (r : Record) : RecState :=
  { nodes := aupdate r.node.id (fun e =>
      match e with
      | none => (r.node, r.depth)
      | some (nr, d) => (nr, if r.depth < d then r.depth else d)) s.nodes
    maxDepth := if r.depth > s.maxDepth then r.depth else s.maxDepth
    rels := match r.rel with
      | none => s.rels
      | some rl => if s.rels.any (fun x => x.id = rl.id) then s.rels
                   else s.rels ++ [rl] }

/-- The state before the loop: `nodes_map`/`node_depths` seeded with the
root at depth 0, `max_depth = 0`, `relationships_map = {}`. -/
def initState (root : NodeRec) : RecState :=
  { nodes := [(root.id, (root, 0))], maxDepth := 0, rels := [] }

/-- The whole record loop. -/
def processRecords (root : NodeRec) (results : List Record) : RecState :=
  results.foldl stepRecord (initState root)

/-! ## Children index (lines 114–130) -/

/-- `children_map`: parent id → (relationship type → child ids). -/
abbrev ChildrenMap := List (Nat × List (String × List Nat))

/-- Parent/child endpoints of a relationship under the chosen direction:
`incoming` reverses, everything else uses `(start, end)`. -/
def relEndpoints (dir : Direction) (r : RelRec) : Nat × Nat :=
  match dir with
  | .incoming => (r.endId, r.startId)
  | _ => (r.startId, r.endId)

/-- One iteration of the `for rel in relationships_map.values()` loop. -/
def addRelToChildren (dir : Direction) (cm : ChildrenMap) (r : RelRec) :
    ChildrenMap :=
  let pc := relEndpoints dir r
  aupdate pc.1 (fun o =>
    aupdate r.type (fun o2 => (o2.getD []) ++ [pc.2]) (o.getD [])) cm

/-- The children-index construction over the deduplicated relationship list
(iterated in insertion order, as `dict.values()` does). -/
def buildChildrenMap (dir : Direction) (rels : List RelRec) : ChildrenMap :=
  rels.foldl (addRelToChildren dir) []

/-! ## Recursive materialization (`build_node`, lines 132–155)

The Python recursion has no termination guard, so it is embedded with an
explicit recursion-depth ("fuel") parameter: `BuildRes.diverge` marks a
computation that exceeds the allotted recursion depth, and the real
`build_node` call terminates on exactly those inputs for which some fuel
avoids `diverge`. `BuildRes.missing` is the `if not node: return None`
outcome for a child id that has no `nodes_map` entry. -/

/-- A node of the nested tree: `{"internal_id", "labels", "properties"}`
plus a `"relationships"` key that is present only when the node has a
non-empty `children_map` entry. -/
inductive TreeNode where
  | mk (internalId : Nat) (labels : List String)
       (props : List (String × String))
       (relationships : Option (List (String × List TreeNode)))
deriving Repr

def TreeNode.internalId : TreeNode → Nat
  | .mk i _ _ _ => i

def TreeNode.labels : TreeNode → List String
  | .mk _ l _ _ => l

def TreeNode.props : TreeNode → List (String × String)
  | .mk _ _ p _ => p

/-- The `node_data` dictionary built for a node. -/
def treeOf (n : NodeRec) (rels : Option (List (String × List TreeNode))) :
    TreeNode :=
  .mk n.id n.labels n.props rels

inductive BuildRes where
  | diverge
  | missing
  | node (t : TreeNode)
deriving Repr

/-- `for child_id in child_ids: ... if child_node: append` — children whose
build returns `None` are skipped; a diverging child makes the whole call
diverge. -/
def buildKids (rec : Nat → BuildRes) : List Nat → Option (List TreeNode)
  | [] => some []
  | cid :: rest =>
    match rec cid with
    | .diverge => none
    | .missing => buildKids rec rest
    | .node t => (buildKids rec rest).map (fun ks => t :: ks)

/-- `for rel_type, child_ids in rels.items()`. -/
def buildRelGroups (rec : Nat → BuildRes) :
    List (String × List Nat) → Option (List (String × List TreeNode))
  | [] => some []
  | (ty, ids) :: rest =>
    match buildKids rec ids with
    | none => none
    | some kids => (buildRelGroups rec rest).map (fun gs => (ty, kids) :: gs)

/-- `build_node(node_id)` with explicit recursion depth. -/
def buildNodeF (nm : Nat → Option NodeRec) (cm : ChildrenMap) :
    Nat → Nat → BuildRes
  | 0 => fun _ => .diverge
  | fuel + 1 => fun nid =>
    match nm nid with
    | none => .missing
    | some n =>
      match alookup nid cm with
      | none => .node (treeOf n none)
      | some [] => .node (treeOf n none)
      | some gs =>
        match buildRelGroups (buildNodeF nm cm fuel) gs with
        | none => .diverge
        | some out => .node (treeOf n (some out))

/-! ## The reconstruction result (lines 56–161) -/

structure SubtreeResult where
  root : BuildRes
  nodeDepths : List (Nat × Nat)
  maxDepth : Nat
deriving Repr

/-- Everything `get_subtree_by_property` does after the two store queries
have returned: `rootOpt` is the root-query outcome (`None` ⇒ the function
returns `None`), `results` is the flat traversal result. The Cypher query
emission itself is external I/O; `fuel` bounds the recursion depth of the
unguarded `build_node` recursion. -/
def getSubtreePost (rootOpt : Option NodeRec) (results : List Record)
    (dir : Direction) (fuel : Nat) : Option SubtreeResult :=
  match rootOpt with
  | none => none
  | some root =>
    let s := processRecords root results
    let nm : Nat → Option NodeRec := fun k => (alookup k s.nodes).map Prod.fst
    let cm := buildChildrenMap dir s.rels
    some { root := buildNodeF nm cm fuel root.id
           nodeDepths := s.nodes.map (fun kv => (kv.1, kv.2.2))
           maxDepth := s.maxDepth }

/-! ## Derived notions used to state the claims -/

/-- Endpoint swap of a relationship descriptor (start and end exchanged). -/
def swapRel (r : RelRec) : RelRec :=
  { r with startId := r.endId, endId := r.startId }

/-- Endpoint swap applied to the relationship of a flat result row. -/
def swapRecord (r : Record) : Record :=
  { r with rel := r.rel.map swapRel }

/-- All depth values observed for node `n` across the flat result rows. -/
def obsDepths (n : Nat) (rs : List Record) : List Nat :=
  rs.filterMap (fun r => if r.node.id = n then some r.depth else none)

/-- Binary minimum written out as the source's comparison-and-keep. -/
def natMin (a b : Nat) : Nat := if a ≤ b then a else b

theorem natMin_def (a b : Nat) : natMin a b = if a ≤ b then a else b := rfl

theorem natMin_le_left (a b : Nat) : natMin a b ≤ a := by
  unfold natMin; split <;> omega

theorem natMin_le_right (a b : Nat) : natMin a b ≤ b := by
  unfold natMin; split <;> omega

/-- Minimum of a list of naturals (`none` for the empty list). -/
def minList : List Nat → Option Nat
  | [] => none
  | x :: xs => some (xs.foldl natMin x)

/-- The `node_depths` dictionary of a reconstruction outcome (empty when the
reconstruction returned `None`). -/
def subtreeNodeDepths (rootOpt : Option NodeRec) (results : List Record)
    (dir : Direction) (fuel : Nat) : List (Nat × Nat) :=
  ((getSubtreePost rootOpt results dir fuel).map SubtreeResult.nodeDepths).getD []

/-! ## Dictionary lemmas -/

theorem alookup_aupdate {β : Type} (k n : Nat) (f : Option β → β) :
    ∀ m : List (Nat × β),
      alookup n (aupdate k f m) =
        if k = n then some (f (alookup k m)) else alookup n m := by
  intro m
  induction m with
  | nil => simp [aupdate, alookup]
  | cons kv rest ih =>
    obtain ⟨k', v⟩ := kv
    by_cases hk : k' = k
    · subst hk
      by_cases hn : k' = n
      · subst hn; simp [aupdate, alookup]
      · simp [aupdate, alookup, hn]
    · by_cases hn : k' = n
      · subst hn
        have hkn : ¬ k = k' := fun h => hk h.symm
        simp [aupdate, alookup, hk, hkn]
      · simp [aupdate, alookup, hk, hn, ih]

theorem alookup_map_snd {β γ : Type} (n : Nat) (f : β → γ) :
    ∀ m : List (Nat × β),
      alookup n (m.map (fun kv => (kv.1, f kv.2))) = (alookup n m).map f := by
  intro m
  induction m with
  | nil => simp [alookup]
  | cons kv rest ih =>
    by_cases h : kv.1 = n
    · simp [alookup, h]
    · simp [alookup, h, ih]

/-! ## Pointwise view of the record-processing fold -/

/-- The effect of one record on the `nodes_map`/`node_depths` entry of a
fixed node id `n`. -/
def entryStep (n : Nat) (e : Option (NodeRec × Nat)) (r : Record) :
    Option (NodeRec × Nat) :=
  if r.node.id = n then
    some (match e with
      | none => (r.node, r.depth)
      | some (nr, d) => (nr, if r.depth < d then r.depth else d))
  else e

theorem lookup_stepRecord (s : RecState) (r : Record) (n : Nat) :
    alookup n (stepRecord s r).nodes = entryStep n (alookup n s.nodes) r := by
  unfold stepRecord entryStep
  simp only [alookup_aupdate]
  by_cases h : r.node.id = n <;> simp [h]

theorem lookup_foldl_records (rs : List Record) :
    ∀ (s : RecState) (n : Nat),
      alookup n ((rs.foldl stepRecord s).nodes) =
        rs.foldl (entryStep n) (alookup n s.nodes) := by
  induction rs with
  | nil => intro s n; rfl
  | cons r rest ih =>
    intro s n
    simp only [List.foldl_cons, ih, lookup_stepRecord]

/-- Merging an initial entry with the observed depths of later records. -/
def mergeDepth (e : Option (NodeRec × Nat)) (l : List Nat) : Option Nat :=
  match e with
  | none => minList l
  | some (_, d) => some (l.foldl natMin d)

theorem obsDepths_cons (n : Nat) (r : Record) (rs : List Record) :
    obsDepths n (r :: rs) =
      if r.node.id = n then r.depth :: obsDepths n rs else obsDepths n rs := by
  by_cases h : r.node.id = n <;> simp [obsDepths, h]

theorem entry_fold_depth (n : Nat) :
    ∀ (rs : List Record) (e : Option (NodeRec × Nat)),
      (rs.foldl (entryStep n) e).map Prod.snd = mergeDepth e (obsDepths n rs) := by
  intro rs
  induction rs with
  | nil =>
    intro e
    match e with
    | none => rfl
    | some (i, d) => rfl
  | cons r rest ih =>
    intro e
    rw [List.foldl_cons, ih, obsDepths_cons]
    by_cases h : r.node.id = n
    · match e with
      | none => simp [entryStep, h, mergeDepth, minList]
      | some (i, d) =>
        have hmin : (if r.depth < d then r.depth else d) = natMin d r.depth := by
          rw [natMin_def]
          split <;> split <;> omega
        simp [entryStep, h, mergeDepth, hmin, List.foldl_cons]
    · match e with
      | none => simp [entryStep, h]
      | some (i, d) => simp [entryStep, h]

theorem entry_fold_fst (n : Nat) :
    ∀ (rs : List Record) (i : NodeRec) (d : Nat),
      ∃ d', rs.foldl (entryStep n) (some (i, d)) = some (i, d') := by
  intro rs
  induction rs with
  | nil => intro i d; exact ⟨d, rfl⟩
  | cons r rest ih =>
    intro i d
    by_cases h : r.node.id = n
    · simpa [entryStep, h] using ih i (if r.depth < d then r.depth else d)
    · simpa [entryStep, h] using ih i d

/-! ## Minimum-list lemmas -/

theorem foldl_min_le_init : ∀ (xs : List Nat) (a : Nat), xs.foldl natMin a ≤ a := by
  intro xs
  induction xs with
  | nil => intro a; exact Nat.le_refl a
  | cons x rest ih =>
    intro a
    calc (x :: rest).foldl natMin a = rest.foldl natMin (natMin a x) := rfl
    _ ≤ natMin a x := ih _
    _ ≤ a := natMin_le_left _ _

theorem foldl_min_le_mem :
    ∀ (xs : List Nat) (a x : Nat), x ∈ xs → xs.foldl natMin a ≤ x := by
  intro xs
  induction xs with
  | nil => intro a x hx; cases hx
  | cons y rest ih =>
    intro a x hx
    rcases List.mem_cons.mp hx with h | h
    · subst h
      calc (x :: rest).foldl natMin a = rest.foldl natMin (natMin a x) := rfl
      _ ≤ natMin a x := foldl_min_le_init _ _
      _ ≤ x := natMin_le_right _ _
    · exact ih _ x h

theorem foldl_min_mem :
    ∀ (xs : List Nat) (a : Nat), xs.foldl natMin a = a ∨ xs.foldl natMin a ∈ xs := by
  intro xs
  induction xs with
  | nil => intro a; exact Or.inl rfl
  | cons x rest ih =>
    intro a
    rcases ih (natMin a x) with h | h
    · rcases Nat.le_total a x with h' | h'
      · left
        rw [List.foldl_cons, h, natMin_def, if_pos h']
      · right
        have hx : natMin a x = x := by
          rw [natMin_def]; split <;> omega
        rw [List.foldl_cons, h, hx]
        exact List.mem_cons_self _ _
    · right
      exact List.mem_cons_of_mem _ h

theorem minList_eq_none (l : List Nat) : minList l = none ↔ l = [] := by
  cases l <;> simp [minList]

theorem minList_eq_some (l : List Nat) (d : Nat) :
    minList l = some d ↔ d ∈ l ∧ ∀ x ∈ l, d ≤ x := by
  cases l with
  | nil => simp [minList]
  | cons x xs =>
    simp only [minList, Option.some.injEq]
    constructor
    · rintro rfl
      refine ⟨?_, ?_⟩
      · rcases foldl_min_mem xs x with h | h
        · rw [h]; exact List.mem_cons_self _ _
        · exact List.mem_cons_of_mem _ h
      · intro y hy
        rcases List.mem_cons.mp hy with h | h
        · subst h; exact foldl_min_le_init _ _
        · exact foldl_min_le_mem _ _ _ h
    · rintro ⟨hmem, hle⟩
      have h1 : xs.foldl natMin x ≤ d := by
        rcases List.mem_cons.mp hmem with h | h
        · subst h; exact foldl_min_le_init _ _
        · exact foldl_min_le_mem _ _ _ h
      have h2 : d ≤ xs.foldl natMin x := by
        rcases foldl_min_mem xs x with h | h
        · rw [h]; exact hle x (List.mem_cons_self _ _)
        · exact hle _ (List.mem_cons_of_mem _ h)
      omega

theorem minList_perm {l₁ l₂ : List Nat} (h : l₁.Perm l₂) :
    minList l₁ = minList l₂ := by
  match h1 : minList l₁ with
  | none =>
    rw [minList_eq_none] at h1
    subst h1
    have : l₂ = [] := h.nil_eq.symm
    rw [this]
    rfl
  | some d =>
    rw [minList_eq_some] at h1
    symm
    rw [minList_eq_some]
    exact ⟨h.mem_iff.mp h1.1, fun x hx => h1.2 x (h.mem_iff.mpr hx)⟩

theorem foldl_min_zero : ∀ xs : List Nat, xs.foldl natMin 0 = 0 := by
  intro xs
  have h1 := foldl_min_le_init xs 0
  omega

/-! ## Claim C1: minimum-depth convergence -/

theorem lookup_nodeDepths_pair (n : Nat) :
    ∀ m : List (Nat × (NodeRec × Nat)),
      alookup n (m.map (fun kv => (kv.1, kv.2.2))) = (alookup n m).map Prod.snd := by
  intro m
  induction m with
  | nil => simp [alookup]
  | cons kv rest ih =>
    by_cases h : kv.1 = n
    · simp [alookup, h]
    · simp [alookup, h, ih]

theorem lookup_subtreeNodeDepths (root : NodeRec) (rs : List Record)
    (dir : Direction) (fuel : Nat) (n : Nat) :
    alookup n (subtreeNodeDepths (some root) rs dir fuel) =
      mergeDepth (alookup n (initState root).nodes) (obsDepths n rs) := by
  have h1 : subtreeNodeDepths (some root) rs dir fuel =
      (processRecords root rs).nodes.map (fun kv => (kv.1, kv.2.2)) := rfl
  rw [h1, lookup_nodeDepths_pair]
  unfold processRecords
  rw [lookup_foldl_records, entry_fold_depth]

/-- C1. For every flat traversal result and every node appearing in it, the
`node_depths` map produced by `get_subtree_by_property` assigns that node
the minimum of all depth values observed for it across the flat
`(node, relationship, depth)` records (with the root fixed at depth 0),
and the assignment is invariant under permutation of the flat result. -/
theorem subtree_node_depths_min (root : NodeRec) (results : List Record)
    (dir : Direction) (fuel : Nat) :
    alookup root.id (subtreeNodeDepths (some root) results dir fuel) = some 0 ∧
    (∀ n, n ≠ root.id →
      alookup n (subtreeNodeDepths (some root) results dir fuel) =
        minList (obsDepths n results)) ∧
    (∀ results', results.Perm results' → ∀ n,
      alookup n (subtreeNodeDepths (some root) results' dir fuel) =
        alookup n (subtreeNodeDepths (some root) results dir fuel)) := by
  have hinit : ∀ n, alookup n (initState root).nodes =
      if root.id = n then some (root, 0) else none := by
    intro n
    simp [initState, alookup]
  refine ⟨?_, ?_, ?_⟩
  · rw [lookup_subtreeNodeDepths, hinit, if_pos rfl]
    simp [mergeDepth, foldl_min_zero]
  · intro n hn
    rw [lookup_subtreeNodeDepths, hinit, if_neg (fun h => hn h.symm)]
    rfl
  · intro results' hperm n
    rw [lookup_subtreeNodeDepths, lookup_subtreeNodeDepths]
    have hobs : (obsDepths n results).Perm (obsDepths n results') :=
      hperm.filterMap _
    by_cases h : root.id = n
    · rw [hinit, if_pos h]
      simp [mergeDepth, foldl_min_zero]
    · rw [hinit, if_neg h]
      exact (minList_perm hobs).symm

/-- Concrete instances used by the witnesses. -/
def rootW : NodeRec := ⟨1, none, ["Capability"], [("name", "Fund Accounting")]⟩

def nodeW : NodeRec := ⟨2, none, ["Process"], []⟩

def resultsW : List Record := [⟨nodeW, none, 3⟩, ⟨nodeW, none, 1⟩]

/-- Witness for C1: node 2 is observed at depths 3 and 1; the reconstructed
depth is their minimum, and reversing the arrival order changes nothing. -/
theorem subtree_node_depths_min_witness :
    alookup 2 (subtreeNodeDepths (some rootW) resultsW .outgoing 1) =
      minList (obsDepths 2 resultsW) ∧
    alookup 2 (subtreeNodeDepths (some rootW) resultsW.reverse .outgoing 1) =
      alookup 2 (subtreeNodeDepths (some rootW) resultsW .outgoing 1) :=
  ⟨(subtree_node_depths_min rootW resultsW .outgoing 1).2.1 2 (by decide),
   (subtree_node_depths_min rootW resultsW .outgoing 1).2.2 resultsW.reverse
     (resultsW.reverse_perm).symm 2⟩

/-! ## Claim C2: root presence -/

/-- C2. Reconstruction returns `None` exactly when the root query found no
node: with an existing root and an empty traversal result it returns a
result whose nested tree is precisely the root node, and whenever the
materialized tree exists at all its top node is the root. -/
theorem subtree_root_presence :
    (∀ results dir fuel, getSubtreePost none results dir fuel = none) ∧
    (∀ (root : NodeRec) (dir : Direction) (fuel : Nat),
      getSubtreePost (some root) [] dir (fuel + 1) =
        some { root := .node (.mk root.id root.labels root.props none)
               nodeDepths := [(root.id, 0)]
               maxDepth := 0 }) ∧
    (∀ (root : NodeRec) (results : List Record) (dir : Direction)
        (fuel : Nat) (res : SubtreeResult) (t : TreeNode),
      getSubtreePost (some root) results dir fuel = some res →
      res.root = .node t → t.internalId = root.id) := by
  refine ⟨fun _ _ _ => rfl, ?_, ?_⟩
  · intro root dir fuel
    simp [getSubtreePost, processRecords, initState, buildChildrenMap,
      buildNodeF, alookup, treeOf]
  · intro root results dir fuel res t hres hroot
    have hfst : ∃ d', alookup root.id (processRecords root results).nodes =
        some (root, d') := by
      unfold processRecords
      rw [lookup_foldl_records]
      have : alookup root.id (initState root).nodes = some (root, 0) := by
        simp [initState, alookup]
      rw [this]
      exact entry_fold_fst root.id results root 0
    obtain ⟨d', hd⟩ := hfst
    have hres' : res.root =
        buildNodeF (fun k => (alookup k (processRecords root results).nodes).map
          Prod.fst) (buildChildrenMap dir (processRecords root results).rels)
          fuel root.id := by
      have := hres
      unfold getSubtreePost at this
      cases this
      rfl
    rw [hres'] at hroot
    cases fuel with
    | zero => cases hroot
    | succ g =>
      rw [buildNodeF] at hroot
      simp only [hd, Option.map_some] at hroot
      rcases hcm : alookup root.id
          (buildChildrenMap dir (processRecords root results).rels) with _ | gs
      · rw [hcm] at hroot
        simp only at hroot
        cases hroot
        rfl
      · rw [hcm] at hroot
        cases gs with
        | nil =>
          simp only at hroot
          cases hroot
          rfl
        | cons g0 grest =>
          simp only at hroot
          rcases hbg : buildRelGroups
              (buildNodeF (fun k =>
                  (alookup k (processRecords root results).nodes).map Prod.fst)
                (buildChildrenMap dir (processRecords root results).rels) g)
              (g0 :: grest) with _ | out
          · rw [hbg] at hroot
            cases hroot
          · rw [hbg] at hroot
            cases hroot
            rfl

/-- Witness for C2: an existing root with an empty traversal result yields a
tree whose top node is the root. -/
theorem subtree_root_presence_witness : (TreeNode.mk 1 ["Capability"]
    [("name", "Fund Accounting")] none).internalId = rootW.id :=
  subtree_root_presence.2.2 rootW [] .outgoing 1
    { root := .node (.mk 1 ["Capability"] [("name", "Fund Accounting")] none)
      nodeDepths := [(1, 0)]
      maxDepth := 0 }
    (.mk 1 ["Capability"] [("name", "Fund Accounting")] none)
    (subtree_root_presence.2.1 rootW .outgoing 0) rfl

/-! ## Claim C4: direction symmetry -/

/-- Endpoint swap applied to the accumulated relationship list. -/
def stateSwap (s : RecState) : RecState :=
  { s with rels := s.rels.map swapRel }

theorem stepRecord_swap (s : RecState) (r : Record) :
    stepRecord (stateSwap s) (swapRecord r) = stateSwap (stepRecord s r) := by
  unfold stepRecord stateSwap swapRecord
  cases hr : r.rel with
  | none => rfl
  | some rl =>
    simp only [Option.map_some]
    have hany : (s.rels.map swapRel).any (fun x => x.id = (swapRel rl).id) =
        s.rels.any (fun x => x.id = rl.id) := by
      rw [List.any_map]
      rfl
    cases h : s.rels.any (fun x => x.id = rl.id) with
    | true => simp [hany, h]
    | false => simp [hany, h, List.map_append]

theorem foldl_stepRecord_swap (rs : List Record) :
    ∀ s : RecState,
      (rs.map swapRecord).foldl stepRecord (stateSwap s) =
        stateSwap (rs.foldl stepRecord s) := by
  induction rs with
  | nil => intro s; rfl
  | cons r rest ih =>
    intro s
    simp only [List.map_cons, List.foldl_cons, stepRecord_swap, ih]

theorem processRecords_swap (root : NodeRec) (rs : List Record) :
    processRecords root (rs.map swapRecord) = stateSwap (processRecords root rs) := by
  unfold processRecords
  have h0 : initState root = stateSwap (initState root) := rfl
  conv_lhs => rw [h0]
  rw [foldl_stepRecord_swap]

theorem buildChildrenMap_swap (rels : List RelRec) :
    buildChildrenMap .outgoing (rels.map swapRel) = buildChildrenMap .incoming rels := by
  unfold buildChildrenMap
  rw [List.foldl_map]
  rfl

/-- C4. Reconstructing with direction `incoming` produces the same children
index and the same overall result (nested tree, node depths and maximum
depth included) as swapping the endpoints of every relationship in the flat
input and reconstructing with direction `outgoing`. -/
theorem direction_symmetry :
    (∀ rels : List RelRec,
      buildChildrenMap .incoming rels =
        buildChildrenMap .outgoing (rels.map swapRel)) ∧
    (∀ (rootOpt : Option NodeRec) (results : List Record) (fuel : Nat),
      getSubtreePost rootOpt results .incoming fuel =
        getSubtreePost rootOpt (results.map swapRecord) .outgoing fuel) := by
  refine ⟨fun rels => (buildChildrenMap_swap rels).symm, ?_⟩
  intro rootOpt results fuel
  cases rootOpt with
  | none => rfl
  | some root =>
    simp only [getSubtreePost, processRecords_swap, stateSwap,
      buildChildrenMap_swap]

/-! ## Claim C3: termination of the recursive materialization

`materializationDiverges` holds exactly when the unguarded `build_node`
recursion exceeds every finite recursion depth on the given input, i.e.
the Python call never returns. -/

def materializationDiverges (rootOpt : Option NodeRec) (results : List Record)
    (dir : Direction) : Prop :=
  ∀ fuel res, getSubtreePost rootOpt results dir fuel = some res →
    res.root = .diverge

/-- A two-node cycle: `A —REALIZED_BY→ B` and `B —REALIZED_BY→ A`. -/
def nodeA : NodeRec := ⟨1, none, ["Capability"], []⟩

def nodeB : NodeRec := ⟨2, none, ["Process"], []⟩

def relAB : RelRec := ⟨10, "REALIZED_BY", 1, 2, []⟩

def relBA : RelRec := ⟨11, "REALIZED_BY", 2, 1, []⟩

def cycleResults : List Record := [⟨nodeB, some relAB, 1⟩, ⟨nodeA, some relBA, 2⟩]

/-- The node map the cycle input produces. -/
def nmC : Nat → Option NodeRec :=
  fun k => (alookup k (processRecords nodeA cycleResults).nodes).map Prod.fst

/-- The children index the cycle input produces. -/
def cmC : ChildrenMap :=
  buildChildrenMap .outgoing (processRecords nodeA cycleResults).rels

theorem cycle_build_diverges :
    ∀ fuel, buildNodeF nmC cmC fuel 1 = .diverge ∧
      buildNodeF nmC cmC fuel 2 = .diverge := by
  have e1 : nmC 1 = some nodeA := rfl
  have e2 : nmC 2 = some nodeB := rfl
  have ecm1 : alookup 1 cmC = some [("REALIZED_BY", [2])] := rfl
  have ecm2 : alookup 2 cmC = some [("REALIZED_BY", [1])] := rfl
  intro fuel
  induction fuel with
  | zero => exact ⟨rfl, rfl⟩
  | succ g ih =>
    constructor
    · rw [buildNodeF]
      simp only [e1, ecm1, buildRelGroups, buildKids, ih.2]
    · rw [buildNodeF]
      simp only [e2, ecm2, buildRelGroups, buildKids, ih.1]

/-- C3 counterexample. The claim asserts that the materialization
terminates on every relationship set, a cycle guard truncating
re-expansion; on the concrete cyclic input `A→B, B→A` the recursion
instead exceeds every finite depth — there is no cycle guard in
`build_node`. -/
theorem cycle_materialization_diverges :
    materializationDiverges (some nodeA) cycleResults .outgoing := by
  intro fuel res h
  have hval : getSubtreePost (some nodeA) cycleResults .outgoing fuel =
      some { root := buildNodeF nmC cmC fuel 1
             nodeDepths := [(1, 0), (2, 1)]
             maxDepth := 2 } := rfl
  rw [hval] at h
  cases h
  exact (cycle_build_diverges fuel).1

/-! Amended C3: the materialization terminates (for a sufficient recursion
depth) whenever the children index admits a rank function that decreases
from parent to child — i.e. whenever its parent→child edges are acyclic;
on a genuinely cyclic relationship set it diverges. -/

theorem buildKids_ne_none (rec : Nat → BuildRes) (ids : List Nat)
    (h : ∀ c ∈ ids, rec c ≠ .diverge) : buildKids rec ids ≠ none := by
  induction ids with
  | nil => simp [buildKids]
  | cons c rest ih =>
    simp only [buildKids]
    cases hc : rec c with
    | diverge => exact absurd hc (h c (List.mem_cons_self _ _))
    | missing => exact ih (fun x hx => h x (List.mem_cons_of_mem _ hx))
    | node t =>
      cases hrest : buildKids rec rest with
      | none => exact absurd hrest (ih (fun x hx => h x (List.mem_cons_of_mem _ hx)))
      | some ks => simp

theorem buildRelGroups_ne_none (rec : Nat → BuildRes)
    (gs : List (String × List Nat))
    (h : ∀ ty ids, (ty, ids) ∈ gs → ∀ c ∈ ids, rec c ≠ .diverge) :
    buildRelGroups rec gs ≠ none := by
  induction gs with
  | nil => simp [buildRelGroups]
  | cons g rest ih =>
    obtain ⟨ty, ids⟩ := g
    simp only [buildRelGroups]
    cases hk : buildKids rec ids with
    | none =>
      exact absurd hk (buildKids_ne_none rec ids
        (h ty ids (List.mem_cons_self _ _)))
    | some kids =>
      cases hrest : buildRelGroups rec rest with
      | none =>
        exact absurd hrest (ih (fun ty' ids' hmem =>
          h ty' ids' (List.mem_cons_of_mem _ hmem)))
      | some gs' => simp

/-- Amended C3. `build_node` has no cycle guard: it terminates precisely
when the parent→child edges of the children index are well-founded. Given
any rank function that strictly decreases along those edges, a recursion
depth beyond the root's rank never hits the depth bound (so the Python
recursion terminates); the cyclic counterexample above shows the other
side. -/
theorem build_node_terminates_of_rank (nm : Nat → Option NodeRec)
    (cm : ChildrenMap) (rank : Nat → Nat)
    (hr : ∀ p gs ty ids c, alookup p cm = some gs → (ty, ids) ∈ gs →
      c ∈ ids → rank c < rank p) :
    ∀ fuel nid, rank nid < fuel → buildNodeF nm cm fuel nid ≠ .diverge := by
  intro fuel
  induction fuel with
  | zero => intro nid h; omega
  | succ g ih =>
    intro nid h
    rw [buildNodeF]
    cases hm : nm nid with
    | none => simp [hm]
    | some n =>
      cases hcm : alookup nid cm with
      | none => simp [hm, hcm]
      | some gs =>
        cases gs with
        | nil => simp [hm, hcm]
        | cons g0 grest =>
          cases hbg : buildRelGroups (buildNodeF nm cm g) (g0 :: grest) with
          | none =>
            exfalso
            refine buildRelGroups_ne_none _ _ ?_ hbg
            intro ty ids hmem c hc
            have hlt : rank c < rank nid := hr nid (g0 :: grest) ty ids c hcm hmem hc
            exact ih c (by omega)
          | some out => simp [hm, hcm, hbg]

/-- Acyclic instance for the witness: a single edge `1 → 2`. -/
def nmW : Nat → Option NodeRec :=
  fun k => if k = 1 then some nodeA else if k = 2 then some nodeB else none

def cmW : ChildrenMap := [(1, [("REALIZED_BY", [2])])]

def rankW : Nat → Nat := fun n => if n = 1 then 1 else 0

/-- Witness for the amended C3: on the acyclic single-edge index, recursion
depth 2 already suffices for the root. -/
theorem build_node_terminates_of_rank_witness :
    buildNodeF nmW cmW 2 1 ≠ .diverge := by
  refine build_node_terminates_of_rank nmW cmW rankW ?_ 2 1 (by decide)
  intro p gs ty ids c h1 h2 h3
  simp only [cmW, alookup] at h1
  split at h1
  · next hp =>
    cases h1
    simp only [List.mem_singleton, Prod.mk.injEq] at h2
    obtain ⟨hty, hids⟩ := h2
    subst hids
    simp only [List.mem_singleton] at h3
    subst h3
    subst hp
    simp [rankW]
  · cases h1

/-! ## NLU helpers (intent_routes.py and llmthinking.py)

Text is embedded as `List Char`. Python string operations used by the
sources: `.lower()` is a character-wise `toLower` (inputs are ASCII),
substring tests (`a in b`) are contiguous-substring tests, and the
regular expressions are spelled out below. `thefuzz` is an external
library and is passed in as an oracle. -/

/-- Python `needle in hay` on strings: contiguous substring test. -/
def isSubstr (t : List Char) : List Char → Bool
  | [] => t.isEmpty
  | c :: rest => t.isPrefixOf (c :: rest) || isSubstr t rest

/-- Python `str.lower()` (ASCII inputs). -/
def lowerStr (s : List Char) : List Char := s.map Char.toLower

/-- Regex `\w`: `[A-Za-z0-9_]` (ASCII). -/
def isWordChar (c : Char) : Bool := c.isAlphanum || c = '_'

/-- Python `str.capitalize()`: first character upper-cased, rest lowered. -/
def pyCapitalize : List Char → List Char
  | [] => []
  | c :: rest => c.toUpper :: rest.map Char.toLower

/-! `INTENT_KEYWORDS` — identical tables in intent_routes.py and
llmthinking.py, iterated in insertion order. -/

def strategicKeys : List (List Char) :=
  ["strategy".toList, "goal".toList, "objective".toList, "plan".toList,
   "vision".toList]

def operationalKeys : List (List Char) :=
  ["process".toList, "steps".toList, "workflow".toList, "procedure".toList,
   "operation".toList]

def informationalKeys : List (List Char) :=
  ["what".toList, "how".toList, "describe".toList, "information".toList,
   "details".toList, "differences".toList]

def impactKeys : List (List Char) :=
  ["impact".toList, "effect".toList, "influence".toList, "consequence".toList]

def technicalKeys : List (List Char) :=
  ["api".toList, "data entity".toList, "technical".toList, "attribute".toList,
   "lineage".toList, "id".toList]

def INTENT_KEYWORDS : List (List Char × List (List Char)) :=
  [("strategic".toList, strategicKeys),
   ("operational".toList, operationalKeys),
   ("informational".toList, informationalKeys),
   ("impact".toList, impactKeys),
   ("technical".toList, technicalKeys)]

/-- `extract_intent` / `_extract_intent`: first keyword set with any raw
substring hit against the lower-cased query wins; default Informational. -/
def extract_intent (user_query : List Char) : List Char :=
  let ql := lowerStr user_query
  match INTENT_KEYWORDS.find? (fun p => p.2.any (fun k => isSubstr k ql)) with
  | some p => pyCapitalize p.1
  | none => "Informational".toList

/-- `determine_persona` (intent_routes.py, lines 62–71). -/
def determine_persona (role : List Char) : List Char × Nat :=
  let rl := lowerStr role
  if isSubstr "specialist".toList rl || isSubstr "architect".toList rl then
    ("Specialist".toList, 4)
  else if isSubstr "executive".toList rl || isSubstr "ceo".toList rl ||
      isSubstr "cfo".toList rl then
    ("Executive".toList, 1)
  else if isSubstr "manager".toList rl then
    ("Manager".toList, 2)
  else
    ("Manager".toList, 3)

/-- The explicit-role branch of `_create_query_plan` (llmthinking.py,
lines 716–730); its argument is the already stripped-and-lower-cased role
string. The literal tested first is `"Investment Analyst"` with capital
letters, exactly as in the source. -/
def planPersonaFromRole (role : List Char) : List Char × Nat :=
  if isSubstr "Investment Analyst".toList role ||
      isSubstr "architect".toList role then
    ("Investment Analyst".toList, 3)
  else if isSubstr "executive".toList role then
    ("Executive".toList, 1)
  else
    ("Manager".toList, 2)

/-! ### Word-boundary search and removal

`re.search(rf"\b{re.escape(term)}\b", q, re.IGNORECASE)` followed by
`re.sub(..., "")`: a case-insensitive literal occurrence of the term whose
surrounding characters are non-word (catalog terms begin and end with word
characters); `re.sub` removes every non-overlapping occurrence, scanning
left to right. The `fuel` argument only bounds the recursion; it is
instantiated at `|q| + 1`, which the scan can never exhaust. -/

/-- Case-insensitive literal-prefix test. -/
def ciPrefix (t q : List Char) : Bool :=
  lowerStr (q.take t.length) = lowerStr t

/-- The character following a prefix match must not be a word character. -/
def boundaryAfter (t q : List Char) : Bool :=
  match q.drop t.length with
  | [] => true
  | d :: _ => !isWordChar d

/-- One left-to-right scan doing both the search and the removal; `prevW`
says whether the previously scanned character was a word character. -/
def scanSub (t : List Char) : Nat → List Char → Bool → Bool × List Char
  | 0, q, _ => (false, q)
  | _ + 1, [], _ => (false, [])
  | fuel + 1, c :: rest, prevW =>
    if !prevW && ciPrefix t (c :: rest) && boundaryAfter t (c :: rest) then
      (true, (scanSub t fuel ((c :: rest).drop t.length) true).2)
    else
      let fr := scanSub t fuel rest (isWordChar c)
      (fr.1, c :: fr.2)

def searchAndRemove (t q : List Char) : Bool × List Char :=
  scanSub t (q.length + 1) q false

/-! `sorted(catalog, key=len, reverse=True)`: stable descending sort by
length, as a stable insertion sort. -/

def insertLenDesc (x : List Char) : List (List Char) → List (List Char)
  | [] => [x]
  | y :: rest =>
    if y.length ≤ x.length then x :: y :: rest else y :: insertLenDesc x rest

def sortByLenDesc (catalog : List (List Char)) : List (List Char) :=
  catalog.foldr insertLenDesc []

/-- The `for term in sorted_catalog` loop of `extract_all_anchors`. -/
def extractLoop : List (List Char) → List Char → List (List Char) →
    List (List Char)
  | [], _, acc => acc
  | t :: rest, q, acc =>
    let fr := searchAndRemove t q
    if fr.1 then extractLoop rest fr.2 (acc ++ [t])
    else extractLoop rest q acc

/-! ### Capitalized-run extraction

`re.findall(r"\b([A-Z][a-z]+(?:\s+[A-Z][a-z]+)*)\b", user_query)`:
non-overlapping, leftmost matches; the repetition is greedy and backtracks
one group when the trailing `\b` fails. -/

/-- Maximal run of lowercase letters. -/
def lowerRun : List Char → List Char × List Char
  | [] => ([], [])
  | c :: rest =>
    if c.isLower then
      let p := lowerRun rest
      (c :: p.1, p.2)
    else ([], c :: rest)

/-- `[A-Z][a-z]+`. -/
def capWord : List Char → Option (List Char × List Char)
  | [] => none
  | c :: rest =>
    if c.isUpper then
      let p := lowerRun rest
      if p.1.isEmpty then none else some (c :: p.1, p.2)
    else none

/-- Maximal run of whitespace (`\s+` when non-empty). -/
def wsRun : List Char → List Char × List Char
  | [] => ([], [])
  | c :: rest =>
    if c.isWhitespace then
      let p := wsRun rest
      (c :: p.1, p.2)
    else ([], c :: rest)

/-- `\b` after a match (next char absent or non-word). -/
def joinBoundary (q : List Char) : Bool :=
  match q with
  | [] => true
  | c :: _ => !isWordChar c

/-- Greedy `(?:\s+[A-Z][a-z]+)*` continuation followed by `\b`, with the
regex backtracking: prefer extending, otherwise stop here if the boundary
holds. -/
def capExt : Nat → List Char → Option (List Char × List Char)
  | 0, q => if joinBoundary q then some ([], q) else none
  | fuel + 1, q =>
    let tryExt :=
      let w := wsRun q
      if w.1.isEmpty then none
      else
        match capWord w.2 with
        | none => none
        | some (word, rest) =>
          match capExt fuel rest with
          | some (ext, fin) => some (w.1 ++ word ++ ext, fin)
          | none => none
    match tryExt with
    | some r => some r
    | none => if joinBoundary q then some ([], q) else none

/-- One whole-pattern match attempt at the current position. -/
def capMatchAt (q : List Char) : Option (List Char × List Char) :=
  match capWord q with
  | none => none
  | some (w0, rest0) =>
    match capExt (rest0.length + 1) rest0 with
    | some (ext, fin) => some (w0 ++ ext, fin)
    | none => none

/-- Scan for all non-overlapping matches (the uppercase first character is
a word character, so a match can only start at a non-word boundary). -/
def capRuns : Nat → List Char → Bool → List (List Char)
  | 0, _, _ => []
  | _ + 1, [], _ => []
  | fuel + 1, c :: rest, prevW =>
    if !prevW then
      match capMatchAt (c :: rest) with
      | some (m, fin) => m :: capRuns fuel fin true
      | none => capRuns fuel rest (isWordChar c)
    else capRuns fuel rest (isWordChar c)

def findCapRuns (q : List Char) : List (List Char) :=
  capRuns (q.length + 1) q false

/-- Python `max(matches, key=len)`: first maximum by length. -/
def maxByLen (m : List Char) (ms : List (List Char)) : List Char :=
  ms.foldl (fun best x => if x.length > best.length then x else best) m

/-- `found_anchors` of `extract_all_anchors` before the final
`list(set(...))` conversion: the word-boundary loop, then (only when it
found nothing) the capitalized-phrase fuzzy fallback with threshold 85.
`fz` is `thefuzz.process.extractOne`. -/
def rawAnchors (fz : List Char → List (List Char) → Option (List Char × Nat))
    (user_query : List Char) (catalog : List (List Char)) : List (List Char) :=
  let found := extractLoop (sortByLenDesc catalog) user_query []
  if found.isEmpty then
    match findCapRuns user_query with
    | [] => found
    | m :: ms =>
      let best := maxByLen m ms
      match fz best catalog with
      | some br => if br.2 > 85 then [br.1] else []
      | none => []
  else found

/-- A possible behavior of Python's `list(set(...))`: any function that
deduplicates (by equality) while producing the set's members in some
iteration order. The iteration order of a `set` of strings is not
specified, so the embedding quantifies over all such functions. -/
def ValidSetOrder (f : List (List Char) → List (List Char)) : Prop :=
  ∀ l, (f l).Nodup ∧ ∀ x, x ∈ f l ↔ x ∈ l

/-- One concrete `ValidSetOrder` behavior: first occurrences in order. -/
def dedupKeepFirst (l : List (List Char)) : List (List Char) :=
  l.foldl (fun acc x => if x ∈ acc then acc else acc ++ [x]) []

/-- `extract_all_anchors` (intent_routes.py, lines 74–93): the raw anchor
list passed through `list(set(...))`, embedded as an arbitrary
`ValidSetOrder` function `setOrder`. -/
def extract_all_anchors
    (fz : List Char → List (List Char) → Option (List Char × Nat))
    (setOrder : List (List Char) → List (List Char))
    (user_query : List Char) (catalog : List (List Char)) : List (List Char) :=
  setOrder (rawAnchors fz user_query catalog)

/-- Step 4 of llmthinking.py's `_extract_all_anchors`: canonicalize via
`_resolve_entity` (an oracle here) and deduplicate preserving the first
occurrence. -/
def canonDedup (resolve : List Char → Option (List Char))
    (found : List (List Char)) : List (List Char) :=
  found.foldl (fun acc item =>
    if item.isEmpty then acc
    else
      let canonical := (resolve item).getD item
      if canonical ∈ acc then acc else acc ++ [canonical]) []

/-! ## The `/intent/query` route (intent_routes.py, lines 252–297)

Modeled up to the construction of the query plan: the subsequent
`fetch_graph_data` / serialization steps are store I/O that does not affect
which branch the route takes. `fzExtract` is `thefuzz.process.extract`
with `limit=3`. -/

inductive IntentOutcome where
  | httpError (status : Nat) (detail : List Char)
  | noMatch (suggestions : List (List Char)) (catalogSample : List (List Char))
  | success (anchors : List (List Char)) (intent : List Char)
      (persona : List Char) (depth : Nat) (isComparison : Bool)
deriving Repr

def process_intent_query
    (fz : List Char → List (List Char) → Option (List Char × Nat))
    (fzExtract : List Char → List (List Char) → List (List Char × Nat))
    (setOrder : List (List Char) → List (List Char))
    (catalog : List (List Char)) (query role : List Char) : IntentOutcome :=
  if catalog.isEmpty then
    .httpError 500 "Could not fetch entity catalog from database".toList
  else
    let anchors := extract_all_anchors fz setOrder query catalog
    if anchors.isEmpty then
      .noMatch ((fzExtract query catalog).filterMap
          (fun s => if s.2 > 50 then some s.1 else none))
        (catalog.take 10)
    else
      let pd := determine_persona role
      .success anchors (extract_intent query) pd.1 pd.2
        (decide (anchors.length > 1))

/-! ## Traversal query generation (llmthinking.py, lines 743–805, and
graphsubtree_service.py line 27 / intent_routes.py line 97) -/

/-- Intent-keyed candidate relationship-type lists. -/
def candidateRels (intent : String) : List String :=
  if intent = "Strategic" then
    ["ENABLED_BY", "ACCOUNTABLE_FOR", "REALIZED_BY"]
  else if intent = "Operational" then
    ["DECOMPOSES", "SUPPORTS", "REALIZED_BY"]
  else
    ["REALIZED_BY", "USES_DATA", "DECOMPOSES", "HAS_ELEMENT"]

/-- Outcome of `CALL db.relationshipTypes()` as `_generate_enterprise_query`
consumes it: `ok types` is any non-raising response, with `types` the
upper-cased names extracted from it (possibly empty when the response was
unusable); `failure` is the raising path of the `try`. -/
inductive Introspection where
  | ok (types : List String)
  | failure

/-- The `rel_pattern` selection: `none` is the any-relationship wildcard. -/
def relPatternOf (intent : String) (intro : Introspection) : Option String :=
  match intro with
  | .ok types =>
    let selected := (candidateRels intent).filter (fun r => types.contains r)
    if selected.isEmpty then none
    else some (String.intercalate "|" selected)
  | .failure => some (String.intercalate "|" (candidateRels intent))

/-- The `[{rel_section}]` text of the generated Cypher. -/
def relSection (relPat : Option String) (depth : Nat) : String :=
  match relPat with
  | some p => ":" ++ p ++ "*1.." ++ toString depth
  | none => "*1.." ++ toString depth

/-- `depth = plan.get("depth_scope") or 1` (`0`/absent are falsy). -/
def genDepth (depthScope : Option Nat) : Nat :=
  match depthScope with
  | none => 1
  | some 0 => 1
  | some d => d

/-- `depth_str = f"*1..{depth}" if depth is not None else "*"`
(graphsubtree_service.py line 27). -/
def depthStr (depth : Option Nat) : String :=
  match depth with
  | some d => "*1.." ++ toString d
  | none => "*"

/-- `depth = min(depth, 5)` in `fetch_graph_data` (intent_routes.py line 97). -/
def fetchDepthCap (depth : Nat) : Nat := natMin depth 5

/-! ## Substring and deduplication lemmas -/

theorem isSubstr_iff (t : List Char) :
    ∀ l : List Char, isSubstr t l = true ↔ t <:+: l := by
  intro l
  induction l with
  | nil =>
    simp only [isSubstr, List.isEmpty_iff]
    constructor
    · rintro rfl
      exact List.infix_rfl
    · intro h
      exact List.eq_nil_of_infix_nil h
  | cons c rest ih =>
    simp [isSubstr, ih, List.infix_cons_iff, List.isPrefixOf_iff_prefix]

theorem dedup_foldl_aux :
    ∀ (l acc : List (List Char)),
      ((acc.Nodup →
        (l.foldl (fun a x => if x ∈ a then a else a ++ [x]) acc).Nodup) ∧
       (∀ x, x ∈ l.foldl (fun a x => if x ∈ a then a else a ++ [x]) acc ↔
         x ∈ acc ∨ x ∈ l)) := by
  intro l
  induction l with
  | nil => intro acc; simp
  | cons y rest ih =>
    intro acc
    constructor
    · intro hacc
      by_cases hy : y ∈ acc
      · simpa [hy] using (ih acc).1 hacc
      · have hnew : (acc ++ [y]).Nodup := by
          rw [List.nodup_append]
          refine ⟨hacc, List.nodup_singleton y, ?_⟩
          intro a ha hay
          rw [List.mem_singleton] at hay
          subst hay
          exact hy ha
        simpa [hy] using (ih (acc ++ [y])).1 hnew
    · intro x
      by_cases hy : y ∈ acc
      · simp only [List.foldl_cons, if_pos hy]
        rw [(ih acc).2 x]
        constructor
        · rintro (h | h)
          · exact Or.inl h
          · exact Or.inr (List.mem_cons_of_mem _ h)
        · rintro (h | h)
          · exact Or.inl h
          · rcases List.mem_cons.mp h with h | h
            · exact Or.inl (h ▸ hy)
            · exact Or.inr h
      · simp only [List.foldl_cons, if_neg hy]
        rw [(ih (acc ++ [y])).2 x]
        simp only [List.mem_append, List.mem_singleton, List.mem_cons]
        tauto

theorem validSetOrder_dedupKeepFirst : ValidSetOrder dedupKeepFirst := by
  intro l
  refine ⟨(dedup_foldl_aux l []).1 List.nodup_nil, fun x => ?_⟩
  rw [dedupKeepFirst, (dedup_foldl_aux l []).2 x]
  simp

/-- Another valid set iteration order: first occurrences, reversed. -/
def revDedup (l : List (List Char)) : List (List Char) :=
  (dedupKeepFirst l).reverse

theorem validSetOrder_revDedup : ValidSetOrder revDedup := by
  intro l
  have h := validSetOrder_dedupKeepFirst l
  refine ⟨List.nodup_reverse.mpr h.1, fun x => ?_⟩
  rw [revDedup, List.mem_reverse]
  exact h.2 x

theorem validSetOrder_nil {f : List (List Char) → List (List Char)}
    (hf : ValidSetOrder f) : f [] = [] := by
  cases he : f [] with
  | nil => rfl
  | cons a rest =>
    exact absurd (((hf []).2 a).mp (by rw [he]; exact List.mem_cons_self _ _))
      (List.not_mem_nil a)

/-- Constant oracles used by the concrete instances below. -/
def fzNone : List Char → List (List Char) → Option (List Char × Nat) :=
  fun _ _ => none

def fzExtractNone : List Char → List (List Char) → List (List Char × Nat) :=
  fun _ _ => []

/-! ## Claim C5: introspection fallback -/

/-- C5 counterexample. When the introspection call raises, the generated
pattern is constrained to the full unverified candidate list (here the
Strategic candidates), not the type-wildcard the claim requires. -/
theorem introspection_failure_uses_candidates :
    relPatternOf "Strategic" .failure ≠ none ∧
    relSection (relPatternOf "Strategic" .failure) 3 =
      ":ENABLED_BY|ACCOUNTABLE_FOR|REALIZED_BY*1..3" :=
  ⟨by decide, by decide⟩

/-- Amended C5. When introspection returns a usable type list whose
intersection with the candidates is empty, the query falls back to the
wildcard pattern (and the request is not failed); but when the
introspection call raises, the query is constrained to the full,
unverified candidate list. -/
theorem introspection_fallback_amended (intent : String) (types : List String)
    (h : ∀ r ∈ candidateRels intent, r ∉ types) :
    relPatternOf intent (.ok types) = none ∧
    relPatternOf intent .failure =
      some (String.intercalate "|" (candidateRels intent)) := by
  constructor
  · have hfil : (candidateRels intent).filter (fun r => types.contains r) = [] := by
      rw [List.filter_eq_nil_iff]
      intro a ha
      simpa using h a ha
    simp only [relPatternOf]
    rw [hfil]
    rfl
  · rfl

/-- Witness for the amended C5: Strategic candidates against a store that
only has HAS_ELEMENT yields the wildcard. -/
theorem introspection_fallback_amended_witness :
    relPatternOf "Strategic" (.ok ["HAS_ELEMENT"]) = none :=
  (introspection_fallback_amended "Strategic" ["HAS_ELEMENT"] (by decide)).1

/-! ## Claim C6: depth cap -/

/-- C6 counterexample. A direct traversal call with depth `None` emits the
literally unbounded `*` pattern, and the enterprise query generator emits
`*1..7` for a plan carrying `depth_scope = 7` — neither is capped at 5. -/
theorem depth_not_capped :
    depthStr none = "*" ∧ genDepth (some 7) = 7 ∧
    relSection (relPatternOf "Informational" (.ok [])) (genDepth (some 7)) =
      "*1..7" :=
  ⟨rfl, rfl, by decide⟩

/-- Amended C6. The 5-hop clamp exists only in `fetch_graph_data`
(`min(depth, 5)`); the persona depths feeding the plans are at most 4; and
`get_subtree_by_property` with `depth=None` emits the literally unbounded
`*` wildcard rather than a capped depth. -/
theorem depth_cap_amended :
    (∀ d, fetchDepthCap d ≤ 5) ∧ depthStr none = "*" ∧
    (∀ role, (determine_persona role).2 ≤ 4) := by
  refine ⟨fun d => natMin_le_right d 5, rfl, fun role => ?_⟩
  unfold determine_persona
  dsimp only
  split
  · decide
  · split
    · decide
    · split <;> decide

/-! ## Claim C7: empty catalog -/

/-- C7 counterexample. With an empty catalog the `/intent/query` route
raises HTTP 500 ("Could not fetch entity catalog from database") instead
of treating it as a no-match outcome with suggestions. -/
theorem empty_catalog_is_http_500 :
    process_intent_query fzNone fzExtractNone dedupKeepFirst []
        "anything".toList "Specialist".toList =
      .httpError 500 "Could not fetch entity catalog from database".toList :=
  rfl

/-- Amended C7. The resolver itself returns an empty list on an empty
catalog without raising; the calling pipeline however answers HTTP 500 for
an empty catalog, and produces the no-match-with-suggestions outcome only
for a non-empty catalog on which no anchor resolves. -/
theorem empty_catalog_amended
    (fz : List Char → List (List Char) → Option (List Char × Nat))
    (so : List (List Char) → List (List Char)) (q : List Char)
    (hfz : ∀ s, fz s [] = none) (hso : ValidSetOrder so) :
    extract_all_anchors fz so q [] = [] ∧
    (∀ fe role, process_intent_query fz fe so [] q role =
      .httpError 500 "Could not fetch entity catalog from database".toList) ∧
    (∀ fe (cat : List (List Char)) role, cat ≠ [] →
      extract_all_anchors fz so q cat = [] →
      process_intent_query fz fe so cat q role =
        .noMatch ((fe q cat).filterMap
            (fun s => if s.2 > 50 then some s.1 else none))
          (cat.take 10)) := by
  have hraw : rawAnchors fz q [] = [] := by
    unfold rawAnchors
    cases hcr : findCapRuns q with
    | nil => simp [sortByLenDesc, extractLoop, hcr]
    | cons m ms => simp [sortByLenDesc, extractLoop, hcr, hfz]
  refine ⟨?_, fun fe role => rfl, ?_⟩
  · unfold extract_all_anchors
    rw [hraw]
    exact validSetOrder_nil hso
  · intro fe cat role hne hanch
    unfold process_intent_query
    rw [if_neg (by simpa [List.isEmpty_iff] using hne)]
    simp only [hanch, List.isEmpty_nil, if_pos]

/-- Witness for the amended C7: a query resolving no anchors against a
one-element catalog produces the no-match outcome. -/
theorem empty_catalog_amended_witness :
    extract_all_anchors fzNone dedupKeepFirst "anything".toList [] = [] ∧
    process_intent_query fzNone fzExtractNone dedupKeepFirst ["Zeta".toList]
        "zzz nothing".toList "Specialist".toList =
      .noMatch [] [["Zeta".toList].getD 0 []] := by
  have h := empty_catalog_amended fzNone dedupKeepFirst "anything".toList
    (fun _ => rfl) validSetOrder_dedupKeepFirst
  have h2 := empty_catalog_amended fzNone dedupKeepFirst "zzz nothing".toList
    (fun _ => rfl) validSetOrder_dedupKeepFirst
  exact ⟨h.1, h2.2.2 fzExtractNone ["Zeta".toList] "Specialist".toList
    (by decide) (by decide)⟩

/-! ## Claim C8: anchor order determinism -/

def catalogW : List (List Char) :=
  ["Fund Accounting".toList, "Portfolio Management".toList]

def queryX : List Char :=
  "How does Fund Accounting support Portfolio Management reporting?".toList

/-- C8 counterexample. Two behaviors both permitted to Python's
`list(set(found_anchors))` produce different ordered outputs on the same
catalog and query, so the result is not dedup-preserving-first-seen-order
and not independent of set iteration order. -/
theorem anchor_order_depends_on_set_order :
    ValidSetOrder dedupKeepFirst ∧ ValidSetOrder revDedup ∧
    extract_all_anchors fzNone dedupKeepFirst queryX catalogW ≠
      extract_all_anchors fzNone revDedup queryX catalogW :=
  ⟨validSetOrder_dedupKeepFirst, validSetOrder_revDedup, by decide⟩

theorem foldl_skip_filter_map (q : List Char → Bool)
    (f : List Char → List Char)
    (g : List (List Char) → List Char → List (List Char)) :
    ∀ (l : List (List Char)) (acc : List (List Char)),
      l.foldl (fun a x => if q x then a else g a (f x)) acc =
        ((l.filter (fun x => !q x)).map f).foldl g acc := by
  intro l
  induction l with
  | nil => intro acc; rfl
  | cons x rest ih =>
    intro acc
    cases hx : q x with
    | true => simp [hx, ih]
    | false => simp [hx, ih]

/-- Amended C8. Anchor resolution returns deduplicated matches:
llmthinking's `_extract_all_anchors` deduplicates canonicalized anchors
preserving the first occurrence (its fold equals the order-preserving
dedup of the canonicalized non-empty items); intent_routes'
`extract_all_anchors` instead pipes the raw matches through `list(set(...))`,
which guarantees only deduplication and membership — the output order
depends on set iteration order. -/
theorem anchor_dedup_amended :
    (∀ (resolve : List Char → Option (List Char)) (found : List (List Char)),
      canonDedup resolve found =
        dedupKeepFirst ((found.filter (fun i => !i.isEmpty)).map
          (fun i => (resolve i).getD i)) ∧
      (canonDedup resolve found).Nodup) ∧
    (∀ fz so q cat, ValidSetOrder so →
      (extract_all_anchors fz so q cat).Nodup ∧
      (∀ x, x ∈ extract_all_anchors fz so q cat ↔ x ∈ rawAnchors fz q cat)) := by
  constructor
  · intro resolve found
    have heq : canonDedup resolve found =
        dedupKeepFirst ((found.filter (fun i => !i.isEmpty)).map
          (fun i => (resolve i).getD i)) :=
      foldl_skip_filter_map (fun i => i.isEmpty)
        (fun i => (resolve i).getD i)
        (fun a x => if x ∈ a then a else a ++ [x]) found []
    refine ⟨heq, ?_⟩
    rw [heq]
    exact (dedup_foldl_aux _ []).1 List.nodup_nil
  · intro fz so q cat hso
    exact ⟨(hso (rawAnchors fz q cat)).1, (hso (rawAnchors fz q cat)).2⟩

/-- Witness for the amended C8. -/
theorem anchor_dedup_amended_witness :
    (canonDedup (fun _ => none) ["A".toList, "A".toList]).Nodup ∧
    (extract_all_anchors fzNone dedupKeepFirst queryX catalogW).Nodup :=
  ⟨(anchor_dedup_amended.1 (fun _ => none) ["A".toList, "A".toList]).2,
   (anchor_dedup_amended.2 fzNone dedupKeepFirst queryX catalogW
     validSetOrder_dedupKeepFirst).1⟩

/-! ## Claim C9: persona mapping from an explicit role -/

/-- C9 counterexample. A role matching none of the tokens yields
`("Manager", 3)`, not the claimed Manager tier with depth 2; a plain
"analyst" role also falls through to `("Manager", 3)` instead of the
analyst tier with depth 3; and in llmthinking the lower-cased role
"investment analyst" misses the capitalized `"Investment Analyst"` test
and yields `("Manager", 2)`. -/
theorem persona_mapping_counterexample :
    determine_persona "intern".toList = ("Manager".toList, 3) ∧
    determine_persona "intern".toList ≠ ("Manager".toList, 2) ∧
    determine_persona "analyst".toList = ("Manager".toList, 3) ∧
    planPersonaFromRole "investment analyst".toList = ("Manager".toList, 2) :=
  ⟨by decide, by decide, by decide, by decide⟩

/-- Amended C9. The explicit-role mapping of intent_routes tests, in
priority order, specialist/architect → `("Specialist", 4)`,
executive/ceo/cfo → `("Executive", 1)`, manager → `("Manager", 2)`, and
anything else → `("Manager", 3)`; in llmthinking's plan the lower-cased
role can reach the analyst tier only through "architect" (the
`"Investment Analyst"` literal never matches a lower-cased string), while
"executive" maps to depth 1 and everything else to `("Manager", 2)`. -/
theorem determine_persona_amended (role : List Char) :
    (("specialist".toList <:+: lowerStr role ∨
        "architect".toList <:+: lowerStr role) →
      determine_persona role = ("Specialist".toList, 4)) ∧
    (¬ "specialist".toList <:+: lowerStr role →
      ¬ "architect".toList <:+: lowerStr role →
      ("executive".toList <:+: lowerStr role ∨
        "ceo".toList <:+: lowerStr role ∨ "cfo".toList <:+: lowerStr role) →
      determine_persona role = ("Executive".toList, 1)) ∧
    (¬ "specialist".toList <:+: lowerStr role →
      ¬ "architect".toList <:+: lowerStr role →
      ¬ "executive".toList <:+: lowerStr role →
      ¬ "ceo".toList <:+: lowerStr role → ¬ "cfo".toList <:+: lowerStr role →
      "manager".toList <:+: lowerStr role →
      determine_persona role = ("Manager".toList, 2)) ∧
    (¬ "specialist".toList <:+: lowerStr role →
      ¬ "architect".toList <:+: lowerStr role →
      ¬ "executive".toList <:+: lowerStr role →
      ¬ "ceo".toList <:+: lowerStr role → ¬ "cfo".toList <:+: lowerStr role →
      ¬ "manager".toList <:+: lowerStr role →
      determine_persona role = ("Manager".toList, 3)) ∧
    planPersonaFromRole "investment analyst".toList = ("Manager".toList, 2) ∧
    planPersonaFromRole "architect lead".toList =
      ("Investment Analyst".toList, 3) := by
  have hpos : ∀ t : List Char, t <:+: lowerStr role →
      isSubstr t (lowerStr role) = true :=
    fun t => (isSubstr_iff t (lowerStr role)).mpr
  have hneg : ∀ t : List Char, ¬ t <:+: lowerStr role →
      isSubstr t (lowerStr role) = false := by
    intro t ht
    cases hb : isSubstr t (lowerStr role) with
    | true => exact absurd ((isSubstr_iff t (lowerStr role)).mp hb) ht
    | false => rfl
  refine ⟨?_, ?_, ?_, ?_, by decide, by decide⟩
  · intro h
    unfold determine_persona
    dsimp only
    rcases h with h | h
    · rw [hpos _ h]
      rfl
    · rw [hpos _ h]
      simp
  · intro h1 h2 h
    unfold determine_persona
    dsimp only
    rw [hneg _ h1, hneg _ h2]
    rcases h with h | h | h
    · rw [hpos _ h]
      rfl
    · rw [hpos _ h]
      simp
    · rw [hpos _ h]
      simp
  · intro h1 h2 h3 h4 h5 h
    unfold determine_persona
    dsimp only
    rw [hneg _ h1, hneg _ h2, hneg _ h3, hneg _ h4, hneg _ h5, hpos _ h]
    rfl
  · intro h1 h2 h3 h4 h5 h6
    unfold determine_persona
    dsimp only
    rw [hneg _ h1, hneg _ h2, hneg _ h3, hneg _ h4, hneg _ h5, hneg _ h6]
    rfl

/-- Witness for the amended C9. -/
theorem determine_persona_amended_witness :
    determine_persona "chief architect".toList = ("Specialist".toList, 4) :=
  (determine_persona_amended "chief architect".toList).1
    (Or.inr ((isSubstr_iff _ _).mp (by decide)))

/-! ## Claim C10: intent classification -/

/-- Semantic form of "some keyword of this set occurs as a raw substring of
the lower-cased query". -/
def keywordHit (keys : List (List Char)) (q : List Char) : Prop :=
  ∃ k ∈ keys, k <:+: lowerStr q

/-- "Some keyword of some set occurs", as the program would compute it. -/
def anyKeywordHit (q : List Char) : Bool :=
  INTENT_KEYWORDS.any (fun p => p.2.any (fun k => isSubstr k (lowerStr q)))

/-- C10 counterexample. The keyword "what" of the informational set occurs
in the query, yet `extract_intent` returns "Informational" — so
"Informational" is not returned exactly when no keyword of any set occurs
as a substring. -/
theorem informational_not_only_default :
    extract_intent "what is this".toList = "Informational".toList ∧
    anyKeywordHit "what is this".toList = true :=
  ⟨by decide, by decide⟩

theorem keywordHit_iff (keys : List (List Char)) (q : List Char) :
    keys.any (fun k => isSubstr k (lowerStr q)) = true ↔ keywordHit keys q := by
  rw [List.any_eq_true]
  constructor
  · rintro ⟨k, hk, hs⟩
    exact ⟨k, hk, (isSubstr_iff _ _).mp hs⟩
  · rintro ⟨k, hk, hs⟩
    exact ⟨k, hk, (isSubstr_iff _ _).mpr hs⟩

/-- Amended C10. Keywords are tested as raw substrings of the lower-cased
query (so "liquidity" is Technical via its substring "id"), the five sets
are scanned in fixed order with the first hit winning, and "Informational"
is returned exactly when neither a strategic nor an operational keyword
occurs and either an informational keyword occurs or no impact/technical
keyword does. -/
theorem extract_intent_amended :
    extract_intent "liquidity".toList = "Technical".toList ∧
    (∀ q : List Char, extract_intent q = "Informational".toList ↔
      (¬ keywordHit strategicKeys q ∧ ¬ keywordHit operationalKeys q ∧
        (keywordHit informationalKeys q ∨
          (¬ keywordHit impactKeys q ∧ ¬ keywordHit technicalKeys q)))) := by
  refine ⟨by decide, fun q => ?_⟩
  have toFalse : ∀ b : Bool, ¬ b = true → b = false := by
    intro b hb
    cases b
    · rfl
    · exact absurd rfl hb
  have hne1 : pyCapitalize "strategic".toList ≠ "Informational".toList := by decide
  have hne2 : pyCapitalize "operational".toList ≠ "Informational".toList := by decide
  have heq3 : pyCapitalize "informational".toList = "Informational".toList := by decide
  have hne4 : pyCapitalize "impact".toList ≠ "Informational".toList := by decide
  have hne5 : pyCapitalize "technical".toList ≠ "Informational".toList := by decide
  by_cases b1 : strategicKeys.any (fun k => isSubstr k (lowerStr q)) = true
  · have hv : extract_intent q = pyCapitalize "strategic".toList := by
      unfold extract_intent INTENT_KEYWORDS
      dsimp only
      simp only [List.find?]
      rw [b1]
    rw [hv]
    exact iff_of_false hne1 (fun hr => hr.1 ((keywordHit_iff _ _).mp b1))
  · by_cases b2 : operationalKeys.any (fun k => isSubstr k (lowerStr q)) = true
    · have hv : extract_intent q = pyCapitalize "operational".toList := by
        unfold extract_intent INTENT_KEYWORDS
        dsimp only
        simp only [List.find?]
        rw [toFalse _ b1, b2]
      rw [hv]
      exact iff_of_false hne2 (fun hr => hr.2.1 ((keywordHit_iff _ _).mp b2))
    · by_cases b3 : informationalKeys.any (fun k => isSubstr k (lowerStr q)) = true
      · have hv : extract_intent q = pyCapitalize "informational".toList := by
          unfold extract_intent INTENT_KEYWORDS
          dsimp only
          simp only [List.find?]
          rw [toFalse _ b1, toFalse _ b2, b3]
        rw [hv, heq3]
        refine iff_of_true rfl ⟨fun h => b1 ((keywordHit_iff _ _).mpr h),
          fun h => b2 ((keywordHit_iff _ _).mpr h),
          Or.inl ((keywordHit_iff _ _).mp b3)⟩
      · by_cases b4 : impactKeys.any (fun k => isSubstr k (lowerStr q)) = true
        · have hv : extract_intent q = pyCapitalize "impact".toList := by
            unfold extract_intent INTENT_KEYWORDS
            dsimp only
            simp only [List.find?]
            rw [toFalse _ b1, toFalse _ b2, toFalse _ b3, b4]
          rw [hv]
          refine iff_of_false hne4 (fun hr => ?_)
          rcases hr.2.2 with h | h
          · exact b3 ((keywordHit_iff _ _).mpr h)
          · exact h.1 ((keywordHit_iff _ _).mp b4)
        · by_cases b5 : technicalKeys.any (fun k => isSubstr k (lowerStr q)) = true
          · have hv : extract_intent q = pyCapitalize "technical".toList := by
              unfold extract_intent INTENT_KEYWORDS
              dsimp only
              simp only [List.find?]
              rw [toFalse _ b1, toFalse _ b2, toFalse _ b3, toFalse _ b4, b5]
            rw [hv]
            refine iff_of_false hne5 (fun hr => ?_)
            rcases hr.2.2 with h | h
            · exact b3 ((keywordHit_iff _ _).mpr h)
            · exact h.2 ((keywordHit_iff _ _).mp b5)
          · have hv : extract_intent q = "Informational".toList := by
              unfold extract_intent INTENT_KEYWORDS
              dsimp only
              simp only [List.find?]
              rw [toFalse _ b1, toFalse _ b2, toFalse _ b3, toFalse _ b4,
                toFalse _ b5]
            rw [hv]
            refine iff_of_true rfl ⟨fun h => b1 ((keywordHit_iff _ _).mpr h),
              fun h => b2 ((keywordHit_iff _ _).mpr h),
              Or.inr ⟨fun h => b4 ((keywordHit_iff _ _).mpr h),
                fun h => b5 ((keywordHit_iff _ _).mpr h)⟩⟩

end Compass
